import Mathlib

/-!
# Verification of the LinkedIn profile-scraper core (`scraper.py`)

A shallow embedding of the pure computational core of the scraper:

* URL canonicalization (`clean_profile_url`), modelled together with the
  parts of CPython's `urllib.parse` (`urlparse` / `urlsplit` / `urljoin` /
  `urlunparse`) that it calls, restricted to the fixed base URL the source
  uses.  Strings are modelled as `List Char` internally.
* The priority classification predicate (`is_developer_profile`).
* Listing collection (`collect_profile_urls`): the per-attempt merge of
  harvested `(url, title)` pairs into the running identifier set and the
  developer priority subset (Python `set`s modelled as insertion-ordered
  duplicate-free lists), the attempt loop, and the final
  priority-first / fill-remainder slicing.
* The multi-strategy selector resolution (`getText` inside the
  `page.evaluate` of `scrape_profile`).
* Total-experience aggregation from duration strings (the tail of the
  `page.evaluate` of `scrape_experience`).
* Record finalization in `scrape_profile` (N/A-coercion, experience
  detail formatting, title cleanup) and the per-item error isolation of
  the main loop (exceptions modelled as `Option`-valued page outcomes).
* Quota parsing in `main` (CPython `int()` on the prompt answer, with
  the `except` fallback to 5).

Theorems named `C1_…` .. `C10_…` settle the corresponding claims.
-/

/-! ## Generic character-list helpers -/

/-- Whitespace characters relevant to the strings the scraper handles
(models Python's `str.strip()` / JS `trim()` on the ASCII range). -/
def pySpace (c : Char) : Bool :=
  c = ' ' || c = '\t' || c = '\n' || c = '\r' || c = '\x0b' || c = '\x0c'

/-- Strip leading and trailing whitespace from a character list. -/
def stripChars (l : List Char) : List Char :=
  ((l.dropWhile pySpace).reverse.dropWhile pySpace).reverse

/-- Strip leading and trailing whitespace from a string (Python `str.strip`). -/
def pyStrip (s : String) : String := ⟨stripChars s.data⟩

/-- Whether `pat` occurs as a contiguous run inside `l`
(Python's `pat in s` on strings). -/
def containsSeq (pat : List Char) : List Char → Bool
  | [] => pat.isEmpty
  | a :: l => pat.isPrefixOf (a :: l) || containsSeq pat l

/-- Substring test on strings, Python `pat in s`. -/
def strContains (s pat : String) : Bool := containsSeq pat.data s.data

/-- Python `str.lower()` / JS `toLowerCase()` on the ASCII range
(`String.toLower` character by character). -/
def lowerStr (s : String) : String := ⟨s.data.map Char.toLower⟩

/-- Replace every occurrence of a non-empty pattern, Python `s.replace(pat, rep)`
for non-empty `pat` (the source only replaces non-empty literals). -/
def replaceSeq (pat rep : List Char) (l : List Char) : List Char :=
  if hpat : pat = [] then l
  else
    match l with
    | [] => []
    | a :: rest =>
      if pat.isPrefixOf (a :: rest) then
        rep ++ replaceSeq pat rep ((a :: rest).drop pat.length)
      else
        a :: replaceSeq pat rep rest
  termination_by l.length
  decreasing_by
  · simp only [List.length_drop, List.length_cons]
    have hlp : 0 < pat.length := List.length_pos.mpr hpat
    omega
  · simp

/-- String version of `replaceSeq`. -/
def pyReplace (s pat rep : String) : String := ⟨replaceSeq pat.data rep.data s.data⟩

/-- Numeric value of a run of decimal digit characters
(JS `parseInt` / Python `int` on a pure digit run). -/
def digitsVal (l : List Char) : Nat :=
  l.foldl (fun n c => n * 10 + (c.toNat - 48)) 0

/-! ## `is_developer_profile` (scraper.py lines 104-120) -/

/-- The keyword list of `is_developer_profile`. -/
def developer_keywords : List String :=
  ["software", "developer", "engineer", "programmer", "backend", "frontend",
   "full stack", "fullstack", "python", "java", "react", "javascript",
   "node", "angular", "vue", "devops", "sre", "tech lead", "technical",
   "architect", "senior", "lead", "principal", "staff", "api", "web",
   "mobile", "android", "ios", "flutter", "react native", "ml", "ai",
   "data scientist", "data engineer", "machine learning", "deep learning",
   "cloud", "aws", "azure", "gcp", "kubernetes", "docker", "microservices"]

/-- `is_developer_profile(title)`: False on falsy / sentinel titles, else a
case-insensitive keyword-substring test. -/
def is_developer_profile (title : String) : Bool :=
  if title = "" ∨ title = "N/A" then false
  else developer_keywords.any (fun k => strContains (lowerStr title) k)

/-- The call `is_developer_profile(x)` where `x` may be Python `None`
(`not title` is true for `None` as well as for the empty string). -/
def is_developer_profile_py (title : Option String) : Bool :=
  match title with
  | none => false
  | some t => is_developer_profile t

/-! ## Selector resolution: `getText` (scraper.py lines 659-666)

The rendered page is modelled as a function from a selector string to the
`innerText` of the element `document.querySelector` returns (`none` when no
element matches). -/

/-- One strategy's outcome: the trimmed text if the element exists and its
text is non-empty both raw and trimmed, else `none`. -/
def resolveOne (ctx : String → Option String) (sel : String) : Option String :=
  match ctx sel with
  | none => none
  | some t => if t ≠ "" ∧ pyStrip t ≠ "" then some (pyStrip t) else none

/-- `getText(selectors)`: first strategy with a non-empty trimmed text wins;
all failing yields the sentinel. -/
def getText (ctx : String → Option String) : List String → String
  | [] => "N/A"
  | sel :: rest =>
    match resolveOne ctx sel with
    | some v => v
    | none => getText ctx rest

/-! ## Quota parsing in `main` (scraper.py lines 986-989)

`limit = int(ask_question(...).strip())` with `except: limit = 5`.
`pyIntParse` models CPython `int(str)`: internal whitespace strip, an
optional sign, then a run of decimal digits optionally separated by single
underscores; anything else raises (here: `none`). -/

/-- Digit run with single-underscore separators, as accepted by `int()`. -/
def parseIntDigits : List Char → Option Nat
  | [] => none
  | c :: rest => if c.isDigit then parseIntDigitsGo (c.toNat - 48) rest else none
where
  parseIntDigitsGo (acc : Nat) : List Char → Option Nat
  | [] => some acc
  | '_' :: c :: rest =>
    if c.isDigit then parseIntDigitsGo (acc * 10 + (c.toNat - 48)) rest else none
  | c :: rest =>
    if c.isDigit then parseIntDigitsGo (acc * 10 + (c.toNat - 48)) rest else none

/-- CPython `int(s)` for a decimal string, `none` when it would raise. -/
def pyIntParse (s : String) : Option Int :=
  match stripChars s.data with
  | '+' :: rest => (parseIntDigits rest).map (fun n => (n : Int))
  | '-' :: rest => (parseIntDigits rest).map (fun n => -(n : Int))
  | rest => (parseIntDigits rest).map (fun n => (n : Int))

/-- The quota `main` proceeds with, given the prompt answer: the parsed
integer when `int()` succeeds (zero and negatives included), else the
`except` fallback 5. -/
def read_limit (s : String) : Int :=
  match pyIntParse (pyStrip s) with
  | some n => n
  | none => 5

/-! ## Duration aggregation (scraper.py lines 601-631, inside
`scrape_experience`'s `page.evaluate`)

`exp.duration.match(/(\d+)\s*(yr|year)s?/i)` is modelled by scanning for
the first position where a digit run is followed (after whitespace) by the
unit, case-insensitively; the captured number is the digit run's value. -/

/-- First number in `l` whose digit run is followed, after whitespace, by
one of the unit spellings (already lowercase).  Faithful to the regex
`(\d+)\s*(yr|year)s?` resp. `(\d+)\s*(mo|month)s?` with the `i` flag:
positions inside a failing digit run all fail alike, so advancing one
character at a time agrees with the regex engine's scan. -/
def firstNumBefore (units : List (List Char)) : List Char → Option Nat
  | [] => none
  | c :: rest =>
    if c.isDigit then
      let digits := (c :: rest).takeWhile Char.isDigit
      let after := ((c :: rest).dropWhile Char.isDigit).dropWhile pySpace
      if units.any (fun u => u.isPrefixOf (after.map Char.toLower)) then
        some (digitsVal digits)
      else firstNumBefore units rest
    else firstNumBefore units rest

/-- `duration.match(/(\d+)\s*(yr|year)s?/i)`, the captured count. -/
def yearMatch (s : String) : Option Nat :=
  firstNumBefore ["yr".data, "year".data] s.data

/-- `duration.match(/(\d+)\s*(mo|month)s?/i)`, the captured count
(`"month"` already begins with `"mo"`, so the `"mo"` branch suffices). -/
def monthMatch (s : String) : Option Nat :=
  firstNumBefore ["mo".data] s.data

/-- The `totalExperience` computation: sum the year and month counts over
all entries' durations, renormalize months over 12 into years, and format,
keeping the sentinel when both totals are zero. -/
def totalExperienceString (durations : List String) : String :=
  let ty := durations.foldl (fun a d => a + (yearMatch d).getD 0) 0
  let tm := durations.foldl (fun a d => a + (monthMatch d).getD 0) 0
  let ty2 := ty + tm / 12
  let tm2 := tm % 12
  if ty2 > 0 ∨ tm2 > 0 then
    toString ty2 ++ " yrs " ++ toString tm2 ++ " mos"
  else "N/A"

/-- `clean_na` from `scrape_profile`: the sentinel becomes the empty string. -/
def clean_na (v : String) : String := if v = "N/A" then "" else v

/-! ## Listing collection (`collect_profile_urls`, scraper.py lines 775-977)

One attempt of the collection loop harvests a list of `(url, title)` pairs
from the page (the result of the `page.evaluate` at lines 857-920; the
`url` is already `href.split('?')[0]`).  The Python `set`s
`profile_urls` / `developer_profiles` are modelled as insertion-ordered
lists without duplicates, `set.add` as append-if-absent. -/

/-- Lines 922-933: merge one attempt's harvested data into the running
state `(profile_urls, developer_profiles)`. -/
def collect_step (st : List String × List String) (data : List (String × String)) :
    List String × List String :=
  data.foldl
    (fun st p =>
      if p.1 ≠ "" then
        ((if p.1 ∈ st.1 then st.1 else st.1 ++ [p.1]),
         (if is_developer_profile p.2 = true ∧ p.1 ∉ st.2 then st.2 ++ [p.1] else st.2))
      else st)
    st

/-- The attempt loop (lines 790-964): one list of harvested pairs per
attempt, stopping when the running set reaches the limit (the `while`
guard and the `break` at line 959-961 coincide on the resulting state).
The navigation, scrolling and delays of the loop body do not affect the
collected state. -/
def collect_loop (limit : Nat) :
    List (List (String × String)) → List String × List String → List String × List String
  | [], st => st
  | b :: bs, st =>
    if limit ≤ st.1.length then st
    else collect_loop limit bs (collect_step st b)

/-- Lines 966-973: priority slicing — developers first (up to the limit,
`final_list = list(developer_profiles)[:limit]`), then fill the remainder
with collected non-developer profiles. -/
def finalize_urls (st : List String × List String) (limit : Nat) : List String :=
  if (st.2.take limit).length < limit then
    st.2.take limit ++
      (st.1.filter (fun u => decide (u ∉ st.2))).take (limit - (st.2.take limit).length)
  else st.2.take limit

/-- `collect_profile_urls(page, people_url, limit)` as a function of the
per-attempt harvests. -/
def collect_profile_urls (batches : List (List (String × String))) (limit : Nat) :
    List String :=
  finalize_urls (collect_loop limit batches ([], [])) limit

/-! ## The `urllib.parse` fragment used by `clean_profile_url`

CPython's `urlsplit` on character lists: optional scheme (a letter followed
by letters/digits/`+`/`-`/`.` up to the first `:`), a netloc after `//`
running to the first `/`, `?` or `#` (with the bracket validation that can
raise `ValueError`), then the fragment split at the first `#` and the query
at the first `?`.  `urlparse` additionally splits `;`-parameters off the
last path segment.  `urljoin` is modelled at the fixed base
`"https://www.linkedin.com"` the source uses (scheme `https`, netloc
`www.linkedin.com`, empty path and query), including RFC-style dot-segment
resolution. -/

/-- The components `urlsplit` produces (`params` folded into `urlparse`'s
path handling; the source never reads `.params`). -/
structure UrlSplit where
  scheme : List Char
  netloc : List Char
  path : List Char
  query : List Char
  fragment : List Char
deriving Repr, DecidableEq

/-- Characters allowed in a scheme after the initial letter. -/
def schemeChar (c : Char) : Bool := c.isAlphanum || c = '+' || c = '-' || c = '.'

/-- Split at the first `:`, keeping both sides; `none` when there is no `:`. -/
def splitAtColon : List Char → Option (List Char × List Char)
  | [] => none
  | c :: rest =>
    if c = ':' then some ([], rest)
    else
      match splitAtColon rest with
      | none => none
      | some (pre, post) => some (c :: pre, post)

/-- The scheme detection of `urlsplit`: the part before the first `:` must
be non-empty, start with a letter and consist of scheme characters;
otherwise no scheme is split off and the URL is left whole. -/
def splitScheme (l : List Char) : Option (List Char) × List Char :=
  match splitAtColon l with
  | none => (none, l)
  | some (pre, post) =>
    if pre ≠ [] ∧ (pre.headD ' ').isAlpha = true ∧ pre.all schemeChar = true then
      (some (pre.map Char.toLower), post)
    else (none, l)

/-- A character ending the netloc. -/
def netlocStop (c : Char) : Bool := c = '/' || c = '?' || c = '#'

/-- Netloc extraction: only after a leading `//`, up to the first
`/`, `?` or `#`. -/
def splitNetlocChars (l : List Char) : List Char × List Char :=
  if l.take 2 = ['/', '/'] then
    (((l.drop 2).takeWhile fun c => !netlocStop c),
     ((l.drop 2).dropWhile fun c => !netlocStop c))
  else ([], l)

/-- The netloc bracket validation of `urlsplit` (raises `ValueError` on an
unbalanced `[` / `]`). -/
def badNetloc (nl : List Char) : Bool :=
  ('[' ∈ nl && ']' ∉ nl) || (']' ∈ nl && '[' ∉ nl)

/-- `urlsplit(url, scheme=dflt)` — `none` models the `ValueError` raise. -/
def urlsplitChars (url : List Char) (dflt : List Char) : Option UrlSplit :=
  let s := splitScheme url
  let nl := splitNetlocChars s.2
  if badNetloc nl.1 then none
  else
    let preFrag := nl.2.takeWhile (fun c => c != '#')
    let fragment := (nl.2.dropWhile (fun c => c != '#')).drop 1
    let path := preFrag.takeWhile (fun c => c != '?')
    let query := (preFrag.dropWhile (fun c => c != '?')).drop 1
    some ⟨s.1.getD dflt, nl.1, path, query, fragment⟩

/-- The last `/`-separated segment of a path (the whole path when it has
no `/`). -/
def lastSegment (p : List Char) : List Char :=
  (p.reverse.takeWhile (fun c => c != '/')).reverse

/-- Everything before `lastSegment`. -/
def beforeLastSegment (p : List Char) : List Char :=
  (p.reverse.dropWhile (fun c => c != '/')).reverse

/-- `_splitparams` applied to a path: drop a `;`-parameter part from the
last segment (from the first `;` at or after the last `/`). -/
def splitparamsPath (p : List Char) : List Char :=
  if '/' ∈ p then
    if ';' ∈ lastSegment p then
      beforeLastSegment p ++ (lastSegment p).takeWhile (fun c => c != ';')
    else p
  else if ';' ∈ p then p.takeWhile (fun c => c != ';') else p

/-- `urlparse(url, scheme=dflt)`: `urlsplit` plus the parameter split on
the path. -/
def urlparseChars (url : List Char) (dflt : List Char) : Option UrlSplit :=
  (urlsplitChars url dflt).map (fun r => { r with path := splitparamsPath r.path })

/-- `urlunsplit`, also `urlunparse` with empty params. -/
def urlunsplitChars (r : UrlSplit) : List Char :=
  let url := r.path
  let url :=
    if r.netloc ≠ [] ∨ url.take 2 = ['/', '/'] then
      '/' :: '/' :: (r.netloc ++
        (if url ≠ [] ∧ url.headD ' ' ≠ '/' then '/' :: url else url))
    else url
  let url := if r.scheme ≠ [] then r.scheme ++ ':' :: url else url
  let url := if r.query ≠ [] then url ++ '?' :: r.query else url
  if r.fragment ≠ [] then url ++ '#' :: r.fragment else url

/-- The fixed base of every `urljoin` in the source. -/
def linkedinBase : List Char := "https://www.linkedin.com".data

/-- Base scheme. -/
def bScheme : List Char := "https".data

/-- Base netloc. -/
def bNetloc : List Char := "www.linkedin.com".data

/-- Dot-segment resolution of `urljoin`: `..` pops (silently on empty),
`.` is dropped, and a trailing `.` / `..` re-appends an empty segment. -/
def resolveSegs (segs : List (List Char)) : List (List Char) :=
  let r := segs.foldl
    (fun acc seg =>
      if seg = ['.', '.'] then acc.dropLast
      else if seg = ['.'] then acc
      else acc ++ [seg]) []
  if segs.getLast? = some ['.', '.'] ∨ segs.getLast? = some ['.'] then r ++ [[]]
  else r

/-- `segments[1:-1] = filter(None, segments[1:-1])`: drop empty segments,
keeping the first and last. -/
def filterMiddleSegs : List (List Char) → List (List Char)
  | [] => []
  | [a] => [a]
  | a :: rest => (a :: (rest.dropLast.filter (fun s => !s.isEmpty))) ++ [rest.getLastD []]

/-- `urljoin("https://www.linkedin.com", url)`.  The base has empty path
and query, so `base_parts` is `['']`; a scheme different from `https`
returns `url` unchanged (`https` itself is in `uses_relative` and
`uses_netloc`, so those membership tests are decided); `none` models a
propagated `ValueError`. -/
def urljoinLinkedin (url : List Char) : Option (List Char) :=
  if url = [] then some linkedinBase
  else
    match urlsplitChars url bScheme with
    | none => none
    | some r =>
      if r.scheme ≠ bScheme then some url
      else if r.netloc ≠ [] then some (urlunsplitChars r)
      else if r.path = [] then
        some (urlunsplitChars { r with netloc := bNetloc })
      else
        let segments :=
          if r.path.headD ' ' = '/' then r.path.splitOn '/'
          else filterMiddleSegs ([] :: r.path.splitOn '/')
        let joined := List.intercalate ['/'] (resolveSegs segments)
        let newPath := if joined = [] then ['/'] else joined
        some (urlunsplitChars { r with netloc := bNetloc, path := newPath })

/-- `"/in/"` as a character list. -/
def inMarker : List Char := "/in/".data

/-- Append a trailing slash when missing (lines 95-97). -/
def ensureTrailingSlash (p : List Char) : List Char :=
  if p.getLast? = some '/' then p else p ++ ['/']

/-- The tail of `clean_profile_url` once the effective URL `v` and its
parse are known: rebuild on the LinkedIn base when the path contains
`/in/`, else return `v`; a parse failure (`ValueError` after `u` was
reassigned) returns `v`. -/
def cleanStep (v : List Char) (po : Option UrlSplit) : List Char :=
  po.elim v (fun p =>
    if containsSeq inMarker p.path = true then
      urlunsplitChars ⟨bScheme, bNetloc, ensureTrailingSlash p.path, [], []⟩
    else v)

/-- `clean_profile_url` (scraper.py lines 84-102) on character lists.
Relative links (no netloc) are joined onto the LinkedIn base and
re-parsed; when the (parameter-stripped) path contains `/in/` the result
is rebuilt on scheme `https` and netloc `www.linkedin.com` with a
trailing slash; otherwise the (possibly joined) URL is returned
unchanged.  A `ValueError` inside the `try` returns whatever the local
`u` holds at that point (the original argument before the `urljoin`
reassignment, the joined URL after it). -/
def cleanProfileUrlChars (u : List Char) : List Char :=
  (urlparseChars u []).elim u (fun p1 =>
    if p1.netloc = [] then
      (urljoinLinkedin u).elim u (fun v => cleanStep v (urlparseChars v []))
    else cleanStep u (some p1))

/-- `clean_profile_url` on strings. -/
def clean_profile_url (u : String) : String := ⟨cleanProfileUrlChars u.data⟩

/-! ## The college-name regex of `scrape_profile` (line 716)

`re.search` of
`\b(NIT [A-Za-z]+|DTU \(DCE\) \d{4}|IIT [A-Za-z]+|IIIT [A-Za-z]+|BITS [A-Za-z]+|[A-Za-z ]+ University|[A-Za-z ]+ College|[A-Za-z ]+ Institute of Technology)\b`:
leftmost position first, alternatives in order at each position, greedy
quantifiers with backtracking, and word boundaries at both ends. -/

/-- Regex word character `\w` on the relevant ASCII range. -/
def isWordChar (c : Char) : Bool := c.isAlphanum || c = '_'

/-- `\b` between two (possibly absent) characters. -/
def isBoundary (prev next : Option Char) : Bool :=
  (prev.elim false isWordChar) != (next.elim false isWordChar)

/-- `\b` right after a word character: the next one must not be a word
character (or the string ends). -/
def endBoundaryAfterWord (next : Option Char) : Bool := !(next.elim false isWordChar)

/-- Alternative `KW[A-Za-z]+\b` (for the `NIT ` / `IIT ` / `IIIT ` /
`BITS ` literals): the maximal letter run after the literal, accepted only
when a word boundary follows — shorter runs never restore the
boundary, so no further backtracking arises. -/
def tryKeywordAlpha (kw : List Char) (l : List Char) : Option (List Char) :=
  if kw.isPrefixOf l then
    let rest := l.drop kw.length
    let run := rest.takeWhile Char.isAlpha
    if run ≠ [] ∧ endBoundaryAfterWord (rest.drop run.length).head? = true then
      some (kw ++ run)
    else none
  else none

/-- Alternative `DTU \(DCE\) \d{4}\b`. -/
def tryDTU (l : List Char) : Option (List Char) :=
  let kw := "DTU (DCE) ".data
  if kw.isPrefixOf l then
    let rest := l.drop kw.length
    let ds := rest.take 4
    if ds.length = 4 ∧ ds.all Char.isDigit = true ∧
        endBoundaryAfterWord (rest.drop 4).head? = true then
      some (kw ++ ds)
    else none
  else none

/-- Character class `[A-Za-z ]`. -/
def isAlphaSpace (c : Char) : Bool := c.isAlpha || c = ' '

/-- Backtracking loop for `[A-Za-z ]+LIT\b`: try run lengths from `j`
down to 1 until the literal and the closing boundary fit. -/
def tryClassLitGo (lit l : List Char) : Nat → Option (List Char)
  | 0 => none
  | j + 1 =>
    let rest := l.drop (j + 1)
    if lit.isPrefixOf rest ∧ endBoundaryAfterWord (rest.drop lit.length).head? = true then
      some (l.take (j + 1) ++ lit)
    else tryClassLitGo lit l j

/-- Alternative `[A-Za-z ]+LIT\b` (LIT one of `" University"`,
`" College"`, `" Institute of Technology"`, each ending in a letter). -/
def tryClassLit (lit : List Char) (l : List Char) : Option (List Char) :=
  tryClassLitGo lit l (l.takeWhile isAlphaSpace).length

/-- All alternatives at one position, in the pattern's order. -/
def tryCollegeAlts (l : List Char) : Option (List Char) :=
  tryKeywordAlpha "NIT ".data l <|> tryDTU l <|>
  tryKeywordAlpha "IIT ".data l <|> tryKeywordAlpha "IIIT ".data l <|>
  tryKeywordAlpha "BITS ".data l <|>
  tryClassLit " University".data l <|> tryClassLit " College".data l <|>
  tryClassLit " Institute of Technology".data l

/-- Scan for the leftmost position with an opening word boundary where an
alternative matches. -/
def collegeSearchGo : Option Char → List Char → Option (List Char)
  | _, [] => none
  | prev, c :: rest =>
    (if isBoundary prev (some c) = true then tryCollegeAlts (c :: rest) else none) <|>
      collegeSearchGo (some c) rest

/-- `re.search(college_pattern, title)`, the matched text. -/
def collegeSearch (s : String) : Option String :=
  (collegeSearchGo none s.data).map (fun l => ⟨l⟩)

/-! ## `scrape_profile` result assembly (scraper.py lines 699-770)

The four `page.evaluate` / sub-page results are the inputs: the basic
header data, the dedicated education text, the experience data and the
skills list.  A raised exception anywhere in the `try` is modelled by
`none`, handled by the `except` at lines 763-770. -/

/-- Header fields from the first `page.evaluate`. -/
structure BasicData where
  name : String
  title : String
  location : String
deriving Repr, DecidableEq

/-- One entry of `experience_data["experiences"]`. -/
structure ExperienceEntry where
  company : String
  title : String
  duration : String
  employmentType : String
deriving Repr, DecidableEq

/-- The dictionary `scrape_experience` returns. -/
structure ExperienceData where
  experiences : List ExperienceEntry
  currentCompany : String
  currentTitle : String
  totalExperience : String
deriving Repr, DecidableEq

/-- Everything a fully navigated profile yields before assembly. -/
structure PageData where
  basic : BasicData
  education : String
  experience : ExperienceData
  skills : List String
deriving Repr, DecidableEq

/-- The finalized record (the dictionary built at lines 738-747 resp.
765-770). -/
structure ProfileRecord where
  name : String
  title : String
  location : String
  education : String
  url : String
  total_experience : String
  experience_details : String
  skills : String
deriving Repr, DecidableEq

/-- Lines 700-707: `"company | title | duration"` with the employment type
appended when truthy; the first five entries joined by `" || "`. -/
def experienceDetailOf (e : ExperienceEntry) : String :=
  let d := e.company ++ " | " ++ e.title ++ " | " ++ e.duration
  if e.employmentType ≠ "" then d ++ " | " ++ e.employmentType else d

/-- `experience_details_str`. -/
def experienceDetailsString (exps : List ExperienceEntry) : String :=
  String.intercalate " || " ((exps.map experienceDetailOf).take 5)

/-- Lines 712-747: the success-path record.  `education` is emitted as
returned by the dedicated education scraper (`x if x else ""` is the
identity on strings); `title` goes through college-splitting and the
home-company suffix, not through `clean_na`. -/
def scrape_profile_success (d : PageData) (profile_url : String) : ProfileRecord :=
  let url := clean_profile_url profile_url
  let experience_details_str := experienceDetailsString d.experience.experiences
  let skills_str := if d.skills = [] then "N/A" else String.intercalate " | " d.skills
  let title_raw := d.basic.title
  let title_clean :=
    match collegeSearch title_raw with
    | some cn => pyStrip (pyReplace (pyReplace title_raw cn "") "|" "")
    | none => title_raw
  let current_company := d.experience.currentCompany
  let title_clean :=
    if current_company ≠ "" ∧ strContains (lowerStr current_company) "gameskraft" = true then
      if strContains (lowerStr title_clean) "at gameskraft" = true then title_clean
      else pyStrip (title_clean ++ " at Gameskraft")
    else title_clean
  { name := clean_na d.basic.name
    title := title_clean
    location := clean_na d.basic.location
    education := d.education
    url := url
    total_experience := clean_na d.experience.totalExperience
    experience_details := clean_na experience_details_str
    skills := clean_na skills_str }

/-- The record the `except` handler returns (lines 765-770). -/
def failureRecord (profile_url : String) : ProfileRecord :=
  { name := "N/A", title := "N/A", location := "N/A", education := "N/A",
    url := clean_profile_url profile_url, total_experience := "N/A",
    experience_details := "N/A", skills := "N/A" }

/-- `scrape_profile(page, profile_url)`: total — every exception inside the
`try` yields the sentinel record. -/
def scrape_profile (outcome : Option PageData) (profile_url : String) : ProfileRecord :=
  match outcome with
  | some d => scrape_profile_success d profile_url
  | none => failureRecord profile_url

/-- The extraction loop of `main` (lines 1005-1029): one record appended
per collected identifier.  `scrape_profile` never raises (its `try` has a
catch-all `except`), so the outer placeholder branch at lines 1017-1029 is
unreachable for caught exception classes and the loop is a map. -/
def main_results (outcome : String → Option PageData) (urls : List String) :
    List ProfileRecord :=
  urls.map (fun u => scrape_profile (outcome u) u)

/-! # Theorems -/

/-! ## Small helper lemmas -/

theorem foldl_add_getD_zero (f : String → Option Nat) (ds : List String)
    (h : ∀ d ∈ ds, f d = none) :
    ∀ n : Nat, ds.foldl (fun a d => a + (f d).getD 0) n = n := by
  induction ds with
  | nil => intro n; rfl
  | cons d rest ih =>
    intro n
    have hd : f d = none := h d (by simp)
    simp only [List.foldl_cons, hd, Option.getD_none, Nat.add_zero]
    exact ih (fun x hx => h x (by simp [hx])) n

theorem clean_na_ne_sentinel (v : String) : clean_na v ≠ "N/A" := by
  unfold clean_na
  split
  · intro h
    exact absurd h (by decide)
  · assumption

/-! ## C6: duration aggregation -/

/-- C6: summing the year and month counts of `"1 yr 8 mos"` and
`"0 yr 6 mos"` and renormalizing months over 12 yields `"2 yrs 2 mos"`;
when no duration parses, the total stays the `"N/A"` sentinel, which
`clean_na` coerces to the empty string at finalization. -/
theorem C6_duration_aggregation :
    totalExperienceString ["1 yr 8 mos", "0 yr 6 mos"] = "2 yrs 2 mos" ∧
    ∀ ds : List String, (∀ d ∈ ds, yearMatch d = none ∧ monthMatch d = none) →
      totalExperienceString ds = "N/A" ∧ clean_na (totalExperienceString ds) = "" := by
  constructor
  · decide
  · intro ds h
    have hy : ds.foldl (fun a d => a + (yearMatch d).getD 0) 0 = 0 :=
      foldl_add_getD_zero yearMatch ds (fun d hd => (h d hd).1) 0
    have hm : ds.foldl (fun a d => a + (monthMatch d).getD 0) 0 = 0 :=
      foldl_add_getD_zero monthMatch ds (fun d hd => (h d hd).2) 0
    have hna : totalExperienceString ds = "N/A" := by
      unfold totalExperienceString
      simp only [hy, hm]
      norm_num
    exact ⟨hna, by rw [hna]; rfl⟩

/-- C6 witness: the no-parseable-duration case at a concrete input. -/
theorem C6_duration_aggregation_witness :
    totalExperienceString ["Present", "N/A"] = "N/A" ∧
    clean_na (totalExperienceString ["Present", "N/A"]) = "" :=
  C6_duration_aggregation.2 ["Present", "N/A"] (by decide)

/-! ## C7: selector resolution (corrected) -/

/-- C7 counterexample: a strategy whose element text is literally `"N/A"`
is a non-empty trimmed value, yet `getText` returns the string that also
serves as the not-found sentinel — so "sentinel only if every strategy
yields empty" fails as stated. -/
theorem C7_counterexample :
    getText (fun _ => some "N/A") ["h1"] = "N/A" ∧
    resolveOne (fun _ => some "N/A") "h1" = some "N/A" := by
  constructor <;> decide

/-- C7 (amended): `getText` returns the first strategy's non-empty trimmed
text, skips failing strategies, and returns `"N/A"` when every strategy
fails; conversely a `"N/A"` result means every strategy failed or some
strategy's trimmed text is literally the sentinel string.  (It never
raises: it is a total function.) -/
theorem C7_selector_resolution (ctx : String → Option String) :
    (∀ sel rest v, resolveOne ctx sel = some v → getText ctx (sel :: rest) = v) ∧
    (∀ sel rest, resolveOne ctx sel = none → getText ctx (sel :: rest) = getText ctx rest) ∧
    (∀ sels, (∀ s ∈ sels, resolveOne ctx s = none) → getText ctx sels = "N/A") ∧
    (∀ sels, getText ctx sels = "N/A" →
      (∀ s ∈ sels, resolveOne ctx s = none) ∨ ∃ s ∈ sels, resolveOne ctx s = some "N/A") := by
  refine ⟨?_, ?_, ?_, ?_⟩
  · intro sel rest v h
    simp [getText, h]
  · intro sel rest h
    simp [getText, h]
  · intro sels
    induction sels with
    | nil => intro _; rfl
    | cons s rest ih =>
      intro h
      have hs : resolveOne ctx s = none := h s (by simp)
      simp only [getText, hs]
      exact ih (fun x hx => h x (by simp [hx]))
  · intro sels
    induction sels with
    | nil => intro _; exact Or.inl (by simp)
    | cons s rest ih =>
      intro h
      cases hs : resolveOne ctx s with
      | none =>
        rw [getText, hs] at h
        rcases ih h with hall | ⟨x, hx, hxv⟩
        · refine Or.inl ?_
          intro x hx
          rcases List.mem_cons.mp hx with rfl | hx
          · exact hs
          · exact hall x hx
        · exact Or.inr ⟨x, List.mem_cons_of_mem s hx, hxv⟩
      | some v =>
        rw [getText, hs] at h
        exact Or.inr ⟨s, List.mem_cons_self s rest, h ▸ hs⟩

/-- C7 witness: all strategies failing at a concrete context. -/
theorem C7_selector_resolution_witness :
    getText (fun _ => none) ["h1", "h2"] = "N/A" :=
  (C7_selector_resolution (fun _ => none)).2.2.1 ["h1", "h2"] (fun _ _ => rfl)

/-! ## C9: quota parsing (corrected) -/

/-- C9 counterexample: `int("0")` and `int("-3")` succeed, so zero and
negative answers are used as the quota instead of the documented default 5
— the claim's "zero, or negative" inputs do not fall back. -/
theorem C9_counterexample :
    read_limit "0" = 0 ∧ read_limit "-3" = -3 ∧ (0 : Int) ≠ 5 ∧ (-3 : Int) ≠ 5 := by
  refine ⟨rfl, rfl, by decide, by decide⟩

/-- C9 (amended): the crawl falls back to the default quota 5 exactly when
`int()` fails to parse the stripped answer; any parsed integer — positive,
zero or negative — is used as given. -/
theorem C9_quota_parsing (s : String) :
    (pyIntParse (pyStrip s) = none → read_limit s = 5) ∧
    (∀ n : Int, pyIntParse (pyStrip s) = some n → read_limit s = n) ∧
    read_limit "7" = 7 ∧ read_limit "abc" = 5 ∧ read_limit " 12 " = 12 := by
  refine ⟨?_, ?_, rfl, rfl, rfl⟩
  · intro h
    unfold read_limit
    rw [h]
  · intro n h
    unfold read_limit
    rw [h]

/-- C9 witness: the fallback branch fires at a concrete non-numeric answer. -/
theorem C9_quota_parsing_witness : read_limit "five" = 5 :=
  (C9_quota_parsing "five").1 (by decide)

/-! ## Collection-loop lemmas -/

theorem collect_step_dev_not_mem (data : List (String × String)) :
    ∀ (st : List String × List String) (u : String), u ∉ st.2 →
    (∀ p ∈ data, p.1 = u → is_developer_profile p.2 = false) →
    u ∉ (collect_step st data).2 := by
  induction data with
  | nil => intro st u hu _; exact hu
  | cons p rest ih =>
    intro st u hu h
    rw [collect_step, List.foldl_cons]
    refine ih _ u ?_ (fun q hq => h q (List.mem_cons_of_mem p hq))
    dsimp only
    split
    · dsimp only
      split
      · rename_i hdev
        intro hmem
        rcases List.mem_append.mp hmem with h1 | h1
        · exact hu h1
        · have heq : u = p.1 := List.mem_singleton.mp h1
          have hfalse := h p (List.mem_cons_self p rest) heq.symm
          rw [hfalse] at hdev
          exact absurd hdev.1 (by simp)
      · exact hu
    · exact hu

theorem collect_loop_dev_not_mem (q : Nat) (bs : List (List (String × String))) :
    ∀ (st : List String × List String) (u : String), u ∉ st.2 →
    (∀ b ∈ bs, ∀ p ∈ b, p.1 = u → is_developer_profile p.2 = false) →
    u ∉ (collect_loop q bs st).2 := by
  induction bs with
  | nil => intro st u hu _; exact hu
  | cons b rest ih =>
    intro st u hu h
    rw [collect_loop]
    split
    · exact hu
    · exact ih _ u
        (collect_step_dev_not_mem b st u hu (fun p hp => h b (List.mem_cons_self b rest) p hp))
        (fun b2 hb2 => h b2 (List.mem_cons_of_mem b hb2))

/-! ## C10: no-subtitle identifiers are never in the priority subset -/

/-- C10: `is_developer_profile` is `false` on the empty title, on Python
`None` and on the `"N/A"` sentinel, and an identifier all of whose
harvested cards carry a non-developer (e.g. empty) subtitle never enters
the `developer_profiles` priority subset of the collection loop. -/
theorem C10_no_subtitle_never_priority :
    is_developer_profile "" = false ∧
    is_developer_profile "N/A" = false ∧
    is_developer_profile_py none = false ∧
    ∀ (batches : List (List (String × String))) (q : Nat) (u : String),
      (∀ b ∈ batches, ∀ p ∈ b, p.1 = u → is_developer_profile p.2 = false) →
      u ∉ (collect_loop q batches ([], [])).2 := by
  refine ⟨rfl, rfl, rfl, ?_⟩
  intro batches q u h
  exact collect_loop_dev_not_mem q batches ([], []) u (by simp) h

/-- C10 witness: a concrete identifier harvested only with an empty
subtitle is absent from the priority subset. -/
theorem C10_no_subtitle_never_priority_witness :
    "https://www.linkedin.com/in/a" ∉
      (collect_loop 2 [[("https://www.linkedin.com/in/a", "")]] ([], [])).2 :=
  C10_no_subtitle_never_priority.2.2.2
    [[("https://www.linkedin.com/in/a", "")]] 2 "https://www.linkedin.com/in/a"
    (by decide)

theorem length_filter_partition {α : Type} (p : α → Bool) (l : List α) :
    (l.filter p).length + (l.filter (fun a => !p a)).length = l.length := by
  induction l with
  | nil => rfl
  | cons a rest ih =>
    cases h : p a <;> simp [List.filter_cons, h] <;> omega

theorem eq_of_fst_eq_of_nodup_map {α β : Type} :
    ∀ (l : List (α × β)), (l.map Prod.fst).Nodup →
      ∀ p ∈ l, ∀ q ∈ l, p.1 = q.1 → p = q := by
  intro l
  induction l with
  | nil => intro _ p hp; exact absurd hp (List.not_mem_nil p)
  | cons a rest ih =>
    intro hnd p hp q hq heq
    rw [List.map_cons, List.nodup_cons] at hnd
    rcases List.mem_cons.mp hp with rfl | hp' <;> rcases List.mem_cons.mp hq with rfl | hq'
    · rfl
    · exact absurd (heq ▸ List.mem_map_of_mem Prod.fst hq') hnd.1
    · exact absurd (heq ▸ List.mem_map_of_mem Prod.fst hp') hnd.1
    · exact ih hnd.2 p hp' q hq' heq

/-- Unfolding one harvested pair of `collect_step`. -/
theorem collect_step_cons (st : List String × List String) (p : String × String)
    (rest : List (String × String)) :
    collect_step st (p :: rest) =
      collect_step
        (if p.1 ≠ "" then
          ((if p.1 ∈ st.1 then st.1 else st.1 ++ [p.1]),
           (if is_developer_profile p.2 = true ∧ p.1 ∉ st.2 then st.2 ++ [p.1] else st.2))
        else st) rest := rfl

/-- `collect_step` on a batch of fresh, distinct, non-empty urls: the
running set gets the urls in discovery order, the priority subset the
developer-classified ones in discovery order. -/
theorem collect_step_fresh :
    ∀ (data : List (String × String)) (pu dp : List String),
    (data.map Prod.fst).Nodup →
    (∀ p ∈ data, p.1 ≠ "" ∧ p.1 ∉ pu ∧ p.1 ∉ dp) →
    collect_step (pu, dp) data =
      (pu ++ data.map Prod.fst,
       dp ++ (data.filter (fun p => is_developer_profile p.2)).map Prod.fst) := by
  intro data
  induction data with
  | nil => intro pu dp _ _; simp [collect_step]
  | cons p rest ih =>
    intro pu dp hnd h
    obtain ⟨hne, hpu, hdp⟩ := h p (List.mem_cons_self p rest)
    rw [List.map_cons, List.nodup_cons] at hnd
    have hfresh : ∀ q ∈ rest, q.1 ≠ p.1 := by
      intro q hq hcon
      exact hnd.1 (hcon ▸ List.mem_map_of_mem Prod.fst hq)
    rw [collect_step_cons, if_pos hne, if_neg hpu]
    by_cases hdev : is_developer_profile p.2 = true
    · rw [if_pos ⟨hdev, hdp⟩]
      rw [ih (pu ++ [p.1]) (dp ++ [p.1]) hnd.2 ?fresh]
      case fresh =>
        intro q hq
        obtain ⟨hq1, hq2, hq3⟩ := h q (List.mem_cons_of_mem p hq)
        refine ⟨hq1, ?_, ?_⟩ <;>
          simp only [List.mem_append, List.mem_singleton, not_or] <;>
          exact ⟨by assumption, hfresh q hq⟩
      simp [List.filter_cons, hdev, List.append_assoc]
    · rw [if_neg (fun hc => hdev hc.1)]
      rw [ih (pu ++ [p.1]) dp hnd.2 ?fresh2]
      case fresh2 =>
        intro q hq
        obtain ⟨hq1, hq2, hq3⟩ := h q (List.mem_cons_of_mem p hq)
        refine ⟨hq1, ?_, hq3⟩
        simp only [List.mem_append, List.mem_singleton, not_or]
        exact ⟨hq2, hfresh q hq⟩
      have hdev' : is_developer_profile p.2 = false := Bool.eq_false_iff.mpr hdev
      simp [List.filter_cons, hdev', List.append_assoc]

/-! ## C4: the 5-candidate / 2-developer / quota-3 scenario -/

/-- C4: when one listing pass yields exactly 5 distinct candidate links of
which exactly 2 are classified as developers, `collect_profile_urls` with
quota 3 returns exactly 3 identifiers: the 2 developer identifiers first
(in discovery order), then 1 non-developer identifier. -/
theorem C4_priority_scenario (data : List (String × String))
    (h5 : data.length = 5)
    (hnd : (data.map Prod.fst).Nodup)
    (hne : ∀ p ∈ data, p.1 ≠ "")
    (hdev2 : (data.filter (fun p => is_developer_profile p.2)).length = 2) :
    collect_profile_urls [data] 3 =
      (data.filter (fun p => is_developer_profile p.2)).map Prod.fst ++
        ((data.filter (fun p => !is_developer_profile p.2)).map Prod.fst).take 1 ∧
    (collect_profile_urls [data] 3).length = 3 := by
  have hloop : collect_loop 3 [data] ([], []) = collect_step ([], []) data := by
    rw [collect_loop, if_neg (by simp), collect_loop]
  have hstep := collect_step_fresh data [] [] hnd
    (fun p hp => ⟨hne p hp, List.not_mem_nil _, List.not_mem_nil _⟩)
  rw [List.nil_append, List.nil_append] at hstep
  set dpL := (data.filter (fun p => is_developer_profile p.2)).map Prod.fst with hdpL
  have hlen2 : dpL.length = 2 := by rw [hdpL, List.length_map]; exact hdev2
  have hmemdp : ∀ p ∈ data, (p.1 ∈ dpL ↔ is_developer_profile p.2 = true) := by
    intro p hp
    constructor
    · intro hmem
      obtain ⟨q, hq, hq1⟩ := List.mem_map.mp hmem
      obtain ⟨hqd, hqdev⟩ := List.mem_filter.mp hq
      have := eq_of_fst_eq_of_nodup_map data hnd q hqd p hp hq1
      rw [← this]
      exact hqdev
    · intro hdev
      exact List.mem_map_of_mem Prod.fst (List.mem_filter.mpr ⟨hp, hdev⟩)
  have hfilter : (data.map Prod.fst).filter (fun u => decide (u ∉ dpL)) =
      (data.filter (fun p => !is_developer_profile p.2)).map Prod.fst := by
    rw [List.map_filter Prod.fst data]
    congr 1
    refine List.filter_congr ?_
    intro p hp
    by_cases hdev : is_developer_profile p.2 = true
    · have hmem : p.1 ∈ dpL := (hmemdp p hp).mpr hdev
      simp [Function.comp, hmem, hdev]
    · have hmem : p.1 ∉ dpL := fun hc => hdev ((hmemdp p hp).mp hc)
      have hdev' : is_developer_profile p.2 = false := Bool.eq_false_iff.mpr hdev
      simp [Function.comp, hmem, hdev']
  have hlen3 : ((data.filter (fun p => !is_developer_profile p.2)).map Prod.fst).length = 3 := by
    rw [List.length_map]
    have := length_filter_partition (fun p => is_developer_profile p.2) data
    omega
  have htake : dpL.take 3 = dpL := List.take_of_length_le (by omega)
  have hout : collect_profile_urls [data] 3 =
      dpL ++ ((data.filter (fun p => !is_developer_profile p.2)).map Prod.fst).take 1 := by
    rw [collect_profile_urls, hloop, hstep, finalize_urls]
    dsimp only
    rw [htake, if_pos (by omega), hfilter, hlen2]
  refine ⟨hout, ?_⟩
  rw [hout]
  simp only [List.length_append, hlen2, List.length_take, hlen3]
  decide

/-- C4 witness: a concrete listing with 5 distinct candidates, 2 of them
developer-classified, under quota 3. -/
theorem C4_priority_scenario_witness :
    collect_profile_urls
      [[("https://www.linkedin.com/in/a", "Software Engineer"),
        ("https://www.linkedin.com/in/b", "Recruiter"),
        ("https://www.linkedin.com/in/c", "Python Developer"),
        ("https://www.linkedin.com/in/d", "HR Manager"),
        ("https://www.linkedin.com/in/e", "Sales Head")]] 3 =
      ["https://www.linkedin.com/in/a", "https://www.linkedin.com/in/c",
       "https://www.linkedin.com/in/b"] ∧
    (collect_profile_urls
      [[("https://www.linkedin.com/in/a", "Software Engineer"),
        ("https://www.linkedin.com/in/b", "Recruiter"),
        ("https://www.linkedin.com/in/c", "Python Developer"),
        ("https://www.linkedin.com/in/d", "HR Manager"),
        ("https://www.linkedin.com/in/e", "Sales Head")]] 3).length = 3 := by
  have h := C4_priority_scenario
    [("https://www.linkedin.com/in/a", "Software Engineer"),
     ("https://www.linkedin.com/in/b", "Recruiter"),
     ("https://www.linkedin.com/in/c", "Python Developer"),
     ("https://www.linkedin.com/in/d", "HR Manager"),
     ("https://www.linkedin.com/in/e", "Sales Head")]
    (by decide) (by decide) (by decide) (by decide)
  refine ⟨?_, h.2⟩
  rw [h.1]
  decide

/-- The single-pair update of `collect_step` preserves the set invariants:
both lists duplicate-free and the priority subset contained in the running
set. -/
theorem collect_upd_inv (st : List String × List String) (p : String × String)
    (h1 : st.1.Nodup) (h2 : st.2.Nodup) (h3 : ∀ u ∈ st.2, u ∈ st.1) :
    (if p.1 ≠ "" then
        ((if p.1 ∈ st.1 then st.1 else st.1 ++ [p.1]),
         (if is_developer_profile p.2 = true ∧ p.1 ∉ st.2 then st.2 ++ [p.1] else st.2))
      else st).1.Nodup ∧
    (if p.1 ≠ "" then
        ((if p.1 ∈ st.1 then st.1 else st.1 ++ [p.1]),
         (if is_developer_profile p.2 = true ∧ p.1 ∉ st.2 then st.2 ++ [p.1] else st.2))
      else st).2.Nodup ∧
    ∀ u ∈ (if p.1 ≠ "" then
        ((if p.1 ∈ st.1 then st.1 else st.1 ++ [p.1]),
         (if is_developer_profile p.2 = true ∧ p.1 ∉ st.2 then st.2 ++ [p.1] else st.2))
      else st).2,
      u ∈ (if p.1 ≠ "" then
        ((if p.1 ∈ st.1 then st.1 else st.1 ++ [p.1]),
         (if is_developer_profile p.2 = true ∧ p.1 ∉ st.2 then st.2 ++ [p.1] else st.2))
      else st).1 := by
  by_cases hne : p.1 ≠ ""
  · rw [if_pos hne]
    have hpu : (if p.1 ∈ st.1 then st.1 else st.1 ++ [p.1]).Nodup := by
      split
      · exact h1
      · rename_i hnm
        refine List.nodup_append.mpr ⟨h1, List.nodup_singleton _, ?_⟩
        intro x hx hmem
        rw [List.mem_singleton] at hmem
        exact hnm (hmem ▸ hx)
    have hdp : (if is_developer_profile p.2 = true ∧ p.1 ∉ st.2 then
        st.2 ++ [p.1] else st.2).Nodup := by
      split
      · rename_i hdev
        refine List.nodup_append.mpr ⟨h2, List.nodup_singleton _, ?_⟩
        intro x hx hmem
        rw [List.mem_singleton] at hmem
        exact hdev.2 (hmem ▸ hx)
      · exact h2
    refine ⟨hpu, hdp, ?_⟩
    intro u hu
    have hmem : u ∈ st.1 ∨ u = p.1 := by
      by_cases hdev : is_developer_profile p.2 = true ∧ p.1 ∉ st.2
      · rw [if_pos hdev] at hu
        rcases List.mem_append.mp hu with h | h
        · exact Or.inl (h3 u h)
        · exact Or.inr (List.mem_singleton.mp h)
      · rw [if_neg hdev] at hu
        exact Or.inl (h3 u hu)
    rcases hmem with h | rfl
    · by_cases hp1 : p.1 ∈ st.1
      · rw [if_pos hp1]; exact h
      · rw [if_neg hp1]; exact List.mem_append_left _ h
    · by_cases hp1 : p.1 ∈ st.1
      · rw [if_pos hp1]; exact hp1
      · rw [if_neg hp1]; exact List.mem_append_right _ (List.mem_singleton.mpr rfl)
  · rw [if_neg hne]
    exact ⟨h1, h2, h3⟩

theorem collect_step_inv (data : List (String × String)) :
    ∀ st : List String × List String,
    st.1.Nodup → st.2.Nodup → (∀ u ∈ st.2, u ∈ st.1) →
    (collect_step st data).1.Nodup ∧ (collect_step st data).2.Nodup ∧
      ∀ u ∈ (collect_step st data).2, u ∈ (collect_step st data).1 := by
  induction data with
  | nil => intro st h1 h2 h3; exact ⟨h1, h2, h3⟩
  | cons p rest ih =>
    intro st h1 h2 h3
    rw [collect_step_cons]
    obtain ⟨g1, g2, g3⟩ := collect_upd_inv st p h1 h2 h3
    exact ih _ g1 g2 g3

theorem collect_loop_inv (q : Nat) (bs : List (List (String × String))) :
    ∀ st : List String × List String,
    st.1.Nodup → st.2.Nodup → (∀ u ∈ st.2, u ∈ st.1) →
    (collect_loop q bs st).1.Nodup ∧ (collect_loop q bs st).2.Nodup ∧
      ∀ u ∈ (collect_loop q bs st).2, u ∈ (collect_loop q bs st).1 := by
  induction bs with
  | nil => intro st h1 h2 h3; exact ⟨h1, h2, h3⟩
  | cons b rest ih =>
    intro st h1 h2 h3
    rw [collect_loop]
    split
    · exact ⟨h1, h2, h3⟩
    · obtain ⟨g1, g2, g3⟩ := collect_step_inv b st h1 h2 h3
      exact ih _ g1 g2 g3

/-! ## C3: deduplication and ordering of the finalized identifiers
(corrected) -/

/-- C3 counterexample: deduplication happens on the raw query-stripped URL
string, not on the canonical identifier — two harvested links that
canonicalize to the same `/in/x/` URL both survive into the finalized
sequence. -/
theorem C3_counterexample :
    collect_profile_urls
      [[("https://www.linkedin.com/in/x", ""), ("https://www.linkedin.com/in/x/", "")]] 2 =
      ["https://www.linkedin.com/in/x", "https://www.linkedin.com/in/x/"] ∧
    clean_profile_url "https://www.linkedin.com/in/x" =
      clean_profile_url "https://www.linkedin.com/in/x/" ∧
    "https://www.linkedin.com/in/x" ≠ "https://www.linkedin.com/in/x/" := by
  refine ⟨by decide, by decide, by decide⟩

/-- C3 (amended): the finalized sequence has no duplicate raw identifiers
(identifiers that merely canonicalize to the same URL may both appear); it
is a prefix of the developer priority subset followed by non-priority
identifiers in first-seen discovery order (a sublist of the running set),
modelling the Python sets as insertion-ordered. -/
theorem C3_dedup_order (batches : List (List (String × String))) (q : Nat) :
    (collect_profile_urls batches q).Nodup ∧
    ∃ l₁ l₂, collect_profile_urls batches q = l₁ ++ l₂ ∧
      l₁ <+: (collect_loop q batches ([], [])).2 ∧
      List.Sublist l₂ (collect_loop q batches ([], [])).1 ∧
      (∀ u ∈ l₁, u ∈ (collect_loop q batches ([], [])).2) ∧
      (∀ u ∈ l₂, u ∉ (collect_loop q batches ([], [])).2) := by
  obtain ⟨h1, h2, _⟩ := collect_loop_inv q batches ([], [])
    List.nodup_nil List.nodup_nil (by intro u hu; exact absurd hu (List.not_mem_nil u))
  set st := collect_loop q batches ([], []) with hst
  have hmemf : ∀ u ∈ (st.1.filter (fun u => decide (u ∉ st.2))).take
      (q - (st.2.take q).length), u ∉ st.2 := by
    intro u hu
    have := List.mem_filter.mp (List.take_subset _ _ hu)
    exact of_decide_eq_true this.2
  rw [collect_profile_urls, ← hst, finalize_urls]
  split
  · constructor
    · refine List.nodup_append.mpr ⟨h2.sublist (List.take_sublist q st.2), ?_, ?_⟩
      · exact h1.sublist ((List.take_sublist _ _).trans (List.filter_sublist st.1))
      · intro x hx hmem
        exact hmemf x hmem (List.take_subset q st.2 hx)
    · refine ⟨st.2.take q, _, rfl, List.take_prefix q st.2, ?_, ?_, hmemf⟩
      · exact (List.take_sublist _ _).trans (List.filter_sublist st.1)
      · exact fun u hu => List.take_subset q st.2 hu
  · constructor
    · exact h2.sublist (List.take_sublist q st.2)
    · refine ⟨st.2.take q, [], (List.append_nil _).symm, List.take_prefix q st.2, ?_, ?_, ?_⟩
      · exact List.nil_sublist st.1
      · exact fun u hu => List.take_subset q st.2 hu
      · intro u hu
        exact absurd hu (List.not_mem_nil u)

/-! ## C8: sentinel coercion at finalization (corrected) -/

/-- C8 counterexample: the `title` field does not pass through `clean_na` —
a successful extraction whose header title resolves to the sentinel emits
a finalized record with `title = "N/A"`. -/
theorem C8_counterexample :
    (scrape_profile_success
      ⟨⟨"N/A", "N/A", "N/A"⟩, "", ⟨[], "N/A", "N/A", "N/A"⟩, []⟩
      "https://www.linkedin.com/in/x").title = "N/A" := by
  decide

/-- C8 (amended): in a successfully extracted, finalized record, the
`name`, `location`, `total_experience`, `experience_details` and `skills`
fields all pass through the sentinel-to-empty coercion and never equal
`"N/A"`; the `education` field is the dedicated education text — empty or
longer than the length-5 filter of the education scraper, so never the
sentinel; but the `title` field skips the coercion (see the
counterexample). -/
theorem C8_sentinel_coercion (d : PageData) (url : String)
    (hedu : d.education = "" ∨ 5 < d.education.length) :
    (scrape_profile_success d url).name ≠ "N/A" ∧
    (scrape_profile_success d url).location ≠ "N/A" ∧
    (scrape_profile_success d url).total_experience ≠ "N/A" ∧
    (scrape_profile_success d url).experience_details ≠ "N/A" ∧
    (scrape_profile_success d url).skills ≠ "N/A" ∧
    (scrape_profile_success d url).education ≠ "N/A" := by
  refine ⟨clean_na_ne_sentinel _, clean_na_ne_sentinel _, clean_na_ne_sentinel _,
    clean_na_ne_sentinel _, clean_na_ne_sentinel _, ?_⟩
  show d.education ≠ "N/A"
  rcases hedu with h | h
  · rw [h]; decide
  · intro hc
    rw [hc] at h
    revert h
    decide

/-- C8 witness: a concrete successful extraction with empty education. -/
theorem C8_sentinel_coercion_witness :
    (scrape_profile_success ⟨⟨"Alice", "Dev", "Pune"⟩, "", ⟨[], "X", "Y", "N/A"⟩, []⟩
      "https://www.linkedin.com/in/alice").name ≠ "N/A" :=
  (C8_sentinel_coercion ⟨⟨"Alice", "Dev", "Pune"⟩, "", ⟨[], "X", "Y", "N/A"⟩, []⟩
    "https://www.linkedin.com/in/alice" (Or.inl rfl)).1

/-! ## C1: quota bound -/

theorem finalize_urls_length_le (st : List String × List String) (q : Nat) :
    (finalize_urls st q).length ≤ q := by
  unfold finalize_urls
  split
  · simp only [List.length_append, List.length_take]
    omega
  · simp only [List.length_take]
    omega

/-- C1: for every quota `q ≥ 0` and every sequence of harvested listing
batches, the identifier list `collect_profile_urls` returns has at most
`q` entries, and the main loop — one record per identifier — produces at
most `q` `ProfileRecord`s. -/
theorem C1_quota_bound (batches : List (List (String × String))) (q : Nat)
    (f : String → Option PageData) :
    (collect_profile_urls batches q).length ≤ q ∧
    (main_results f (collect_profile_urls batches q)).length ≤ q := by
  have h1 : (collect_profile_urls batches q).length ≤ q :=
    finalize_urls_length_le (collect_loop q batches ([], [])) q
  refine ⟨h1, ?_⟩
  rw [main_results, List.length_map]
  exact h1

/-! ## C2: per-item error isolation -/

/-- C2: the extraction loop yields exactly one record per collected
identifier — index by index the record is `scrape_profile` of that
identifier — and a failed extraction (a raised exception, modelled by a
`none` page outcome) produces the sentinel record with every field `"N/A"`
and the identifier, in canonical URL form, preserved in `url`. -/
theorem C2_error_isolation (f : String → Option PageData) (urls : List String)
    (u : String) (hu : f u = none) :
    (main_results f urls).length = urls.length ∧
    (∀ i, (main_results f urls).get? i = (urls.get? i).map (fun w => scrape_profile (f w) w)) ∧
    scrape_profile (f u) u =
      { name := "N/A", title := "N/A", location := "N/A", education := "N/A",
        url := clean_profile_url u, total_experience := "N/A",
        experience_details := "N/A", skills := "N/A" } := by
  refine ⟨List.length_map _ _, ?_, ?_⟩
  · intro i
    rw [main_results, List.get?_map]
  · rw [hu]
    rfl

/-- C2 witness: a batch of three identifiers whose middle detail page
times out still yields three records, the failed one sentinel-filled with
its canonicalized identifier. -/
theorem C2_error_isolation_witness :
    (main_results
      (fun u => if u = "https://www.linkedin.com/in/b" then none
        else some ⟨⟨"A", "Dev", "L"⟩, "", ⟨[], "C", "T", "N/A"⟩, []⟩)
      ["https://www.linkedin.com/in/a", "https://www.linkedin.com/in/b",
       "https://www.linkedin.com/in/c"]).length = 3 ∧
    scrape_profile none "https://www.linkedin.com/in/b" =
      { name := "N/A", title := "N/A", location := "N/A", education := "N/A",
        url := "https://www.linkedin.com/in/b/", total_experience := "N/A",
        experience_details := "N/A", skills := "N/A" } := by
  have h := C2_error_isolation
    (fun u => if u = "https://www.linkedin.com/in/b" then none
      else some ⟨⟨"A", "Dev", "L"⟩, "", ⟨[], "C", "T", "N/A"⟩, []⟩)
    ["https://www.linkedin.com/in/a", "https://www.linkedin.com/in/b",
     "https://www.linkedin.com/in/c"]
    "https://www.linkedin.com/in/b" (by decide)
  refine ⟨h.1, ?_⟩
  have h2 := h.2.2
  have hf : (fun u => if u = "https://www.linkedin.com/in/b" then none
      else some (⟨⟨"A", "Dev", "L"⟩, "", ⟨[], "C", "T", "N/A"⟩, []⟩ : PageData))
      "https://www.linkedin.com/in/b" = none := by decide
  rw [hf] at h2
  rw [h2]
  decide

/-! ## Character-list lemmas for canonicalization (C5) -/

theorem takeWhile_eq_self_of_all {p : Char → Bool} :
    ∀ {l : List Char}, (∀ a ∈ l, p a = true) → l.takeWhile p = l := by
  intro l
  induction l with
  | nil => intro _; rfl
  | cons a t ih =>
    intro h
    rw [List.takeWhile_cons, if_pos (h a (List.mem_cons_self a t)),
      ih (fun x hx => h x (List.mem_cons_of_mem a hx))]

theorem dropWhile_eq_nil_of_all {p : Char → Bool} :
    ∀ {l : List Char}, (∀ a ∈ l, p a = true) → l.dropWhile p = [] := by
  intro l
  induction l with
  | nil => intro _; rfl
  | cons a t ih =>
    intro h
    rw [List.dropWhile_cons, if_pos (h a (List.mem_cons_self a t))]
    exact ih (fun x hx => h x (List.mem_cons_of_mem a hx))

theorem bne_true_of_not_mem {c : Char} {l : List Char} (h : c ∉ l) :
    ∀ a ∈ l, (a != c) = true := by
  intro a ha
  exact bne_iff_ne.mpr (fun hc => h (hc ▸ ha))

theorem dropWhile_eq_nil_or_head {p : Char → Bool} :
    ∀ (l : List Char), l.dropWhile p = [] ∨
      ∃ c t, l.dropWhile p = c :: t ∧ p c = false := by
  intro l
  induction l with
  | nil => exact Or.inl rfl
  | cons a t ih =>
    by_cases h : p a = true
    · rw [List.dropWhile_cons, if_pos h]
      exact ih
    · rw [List.dropWhile_cons, if_neg h]
      exact Or.inr ⟨a, t, rfl, Bool.eq_false_iff.mpr h⟩

theorem mem_of_mem_takeWhile {p : Char → Bool} {a : Char} {l : List Char}
    (h : a ∈ l.takeWhile p) : a ∈ l :=
  (List.takeWhile_sublist p).subset h

theorem mem_of_mem_dropWhile {p : Char → Bool} {a : Char} {l : List Char}
    (h : a ∈ l.dropWhile p) : a ∈ l :=
  (List.dropWhile_sublist p).subset h

theorem containsSeq_nil_pat : ∀ l : List Char, containsSeq [] l = true := by
  intro l
  cases l with
  | nil => rfl
  | cons a t => rfl

theorem isPrefixOf_append_ext :
    ∀ (p l l2 : List Char), p.isPrefixOf l = true → p.isPrefixOf (l ++ l2) = true := by
  intro p
  induction p with
  | nil =>
    intro l l2 _
    cases hl : l ++ l2 with
    | nil => rfl
    | cons b bs => rfl
  | cons a as ih =>
    intro l l2 h
    cases l with
    | nil => exact absurd h (by simp [List.isPrefixOf])
    | cons b bs =>
      rw [List.cons_append]
      simp only [List.isPrefixOf, Bool.and_eq_true] at h ⊢
      exact ⟨h.1, ih bs l2 h.2⟩

theorem containsSeq_cons_of {pat : List Char} {l : List Char} (c : Char)
    (h : containsSeq pat l = true) : containsSeq pat (c :: l) = true := by
  rw [containsSeq, h, Bool.or_true]

theorem containsSeq_append_right {pat : List Char} :
    ∀ {l : List Char} (l2 : List Char),
      containsSeq pat l = true → containsSeq pat (l ++ l2) = true := by
  intro l
  induction l with
  | nil =>
    intro l2 h
    rw [containsSeq] at h
    rw [List.isEmpty_iff] at h
    rw [h]
    exact containsSeq_nil_pat l2
  | cons a t ih =>
    intro l2 h
    rw [containsSeq] at h
    rw [List.cons_append, containsSeq]
    rcases Bool.or_eq_true_iff.mp h with hpre | hrec
    · rw [← List.cons_append]
      rw [isPrefixOf_append_ext pat (a :: t) l2 hpre]
      rfl
    · rw [ih l2 hrec, Bool.or_true]

/-! ### `splitparamsPath` lemmas -/

theorem lastSegment_of_trailing {p : List Char} (h : p.getLast? = some '/') :
    lastSegment p = [] := by
  rw [← List.head?_reverse] at h
  cases hrev : p.reverse with
  | nil => rw [hrev] at h; exact absurd h (by simp)
  | cons c r =>
    rw [hrev] at h
    rw [List.head?_cons, Option.some_inj] at h
    subst h
    rw [lastSegment, hrev, List.takeWhile_cons, if_neg (by simp)]
    rfl

theorem splitparams_of_trailing {p : List Char} (h : p.getLast? = some '/') :
    splitparamsPath p = p := by
  have hmem : '/' ∈ p := by
    have := List.mem_of_mem_head? (l := p.reverse) (by rw [List.head?_reverse, h]; rfl)
    exact List.mem_reverse.mp this
  rw [splitparamsPath, if_pos hmem, if_neg (by rw [lastSegment_of_trailing h]; simp)]

theorem splitparams_subset {a : Char} : ∀ {p : List Char},
    a ∈ splitparamsPath p → a ∈ p := by
  intro p h
  rw [splitparamsPath] at h
  split at h
  · split at h
    · rcases List.mem_append.mp h with h1 | h1
      · rw [beforeLastSegment] at h1
        have := List.mem_reverse.mp h1
        exact List.mem_reverse.mp (mem_of_mem_dropWhile this)
      · have h2 := mem_of_mem_takeWhile h1
        rw [lastSegment] at h2
        have := List.mem_reverse.mp h2
        exact List.mem_reverse.mp (mem_of_mem_takeWhile this)
    · exact h
  · split at h
    · exact mem_of_mem_takeWhile h
    · exact h

theorem dropWhile_ne_nil_of_mem {c : Char} {l : List Char} (h : c ∈ l) :
    l.dropWhile (fun a => a != c) ≠ [] := by
  induction l with
  | nil => exact absurd h (List.not_mem_nil c)
  | cons a t ih =>
    by_cases hac : a = c
    · rw [List.dropWhile_cons, if_neg (by simp [hac])]
      simp
    · rw [List.dropWhile_cons, if_pos (bne_iff_ne.mpr hac)]
      refine ih ?_
      rcases List.mem_cons.mp h with h1 | h1
      · exact absurd h1.symm hac
      · exact h1

theorem head?_append_of_ne_nil {l t : List Char} (h : l ≠ []) :
    (l ++ t).head? = l.head? := by
  cases l with
  | nil => exact absurd rfl h
  | cons a r => rfl

theorem beforeLastSegment_isPrefix (p : List Char) : beforeLastSegment p <+: p := by
  rw [beforeLastSegment]
  have hsuf := List.dropWhile_suffix (l := p.reverse) (fun a => a != '/')
  have h2 := List.reverse_prefix.mpr hsuf
  rwa [List.reverse_reverse] at h2

theorem splitparams_head {p : List Char} (h : p.head? = some '/') :
    (splitparamsPath p).head? = some '/' := by
  have hmem : '/' ∈ p := List.mem_of_mem_head? (by rw [h]; rfl)
  rw [splitparamsPath, if_pos hmem]
  split
  · have hbls : beforeLastSegment p ≠ [] := by
      rw [beforeLastSegment]
      intro hc
      rw [List.reverse_eq_nil_iff] at hc
      exact dropWhile_ne_nil_of_mem (List.mem_reverse.mpr hmem) hc
    have hb : (beforeLastSegment p).head? = some '/' := by
      obtain ⟨t, ht⟩ := beforeLastSegment_isPrefix p
      rw [← ht, head?_append_of_ne_nil hbls] at h
      exact h
    rw [head?_append_of_ne_nil hbls, hb]
  · exact h

theorem getLast?_cons_of_some {l : List Char} {c a : Char} (h : l.getLast? = some c) :
    (a :: l).getLast? = some c := by
  cases l with
  | nil => exact absurd h (by simp)
  | cons b t => rw [List.getLast?_cons_cons]; exact h

theorem ensureTrailingSlash_getLast (p : List Char) :
    (ensureTrailingSlash p).getLast? = some '/' := by
  rw [ensureTrailingSlash]
  split
  · assumption
  · exact List.getLast?_concat p

theorem ensureTrailingSlash_ne_nil (p : List Char) : ensureTrailingSlash p ≠ [] := by
  intro h
  have h2 := ensureTrailingSlash_getLast p
  rw [h] at h2
  exact absurd h2 (by simp)

theorem not_mem_ensureTrailingSlash {c : Char} {p : List Char} (hc : c ≠ '/')
    (h : c ∉ p) : c ∉ ensureTrailingSlash p := by
  rw [ensureTrailingSlash]
  split
  · exact h
  · intro hmem
    rcases List.mem_append.mp hmem with h1 | h1
    · exact h h1
    · exact hc (List.mem_singleton.mp h1)

theorem containsSeq_ensureTrailingSlash {pat p : List Char}
    (h : containsSeq pat p = true) : containsSeq pat (ensureTrailingSlash p) = true := by
  rw [ensureTrailingSlash]
  split
  · exact h
  · exact containsSeq_append_right ['/'] h

/-! ### Parsing the canonical LinkedIn shapes -/

theorem splitScheme_linkedin (t : List Char) :
    splitScheme (linkedinBase ++ t) = (some bScheme, '/' :: '/' :: (bNetloc ++ t)) := rfl

theorem splitNetloc_linkedin (t : List Char)
    (ht : t = [] ∨ ∃ c t2, t = c :: t2 ∧ netlocStop c = true) :
    splitNetlocChars ('/' :: '/' :: (bNetloc ++ t)) = (bNetloc, t) := by
  rcases ht with rfl | ⟨c, t2, rfl, hc⟩
  · rw [List.append_nil]
    rfl
  · have hcc : (c = '/' ∨ c = '?') ∨ c = '#' := by
      simpa [netlocStop] using hc
    rcases hcc with (rfl | rfl) | rfl <;> rfl

theorem urlsplit_canonical (P d : List Char) (hhead : P.head? = some '/')
    (hq : '?' ∉ P) (hf : '#' ∉ P) :
    urlsplitChars (linkedinBase ++ P) d = some ⟨bScheme, bNetloc, P, [], []⟩ := by
  obtain ⟨P', rfl⟩ : ∃ P', P = '/' :: P' := by
    cases P with
    | nil => exact absurd hhead (by simp)
    | cons c t =>
      rw [List.head?_cons, Option.some_inj] at hhead
      exact ⟨t, by rw [hhead]⟩
  have hnl := splitNetloc_linkedin ('/' :: P') (Or.inr ⟨'/', P', rfl, rfl⟩)
  simp only [urlsplitChars, splitScheme_linkedin, hnl]
  rw [if_neg (by decide)]
  rw [takeWhile_eq_self_of_all (bne_true_of_not_mem hf),
    dropWhile_eq_nil_of_all (bne_true_of_not_mem hf),
    takeWhile_eq_self_of_all (bne_true_of_not_mem hq),
    dropWhile_eq_nil_of_all (bne_true_of_not_mem hq)]
  rfl

theorem urlparse_canonical (P d : List Char) (hhead : P.head? = some '/')
    (hq : '?' ∉ P) (hf : '#' ∉ P) :
    urlparseChars (linkedinBase ++ P) d = some ⟨bScheme, bNetloc, splitparamsPath P, [], []⟩ := by
  rw [urlparseChars, urlsplit_canonical P d hhead hq hf]
  rfl

theorem urlparse_linkedin_netloc (t d : List Char)
    (ht : t = [] ∨ ∃ c t2, t = c :: t2 ∧ netlocStop c = true) :
    ∃ r, urlparseChars (linkedinBase ++ t) d = some r ∧ r.netloc = bNetloc := by
  have hnl := splitNetloc_linkedin t ht
  rw [urlparseChars]
  simp only [urlsplitChars, splitScheme_linkedin, hnl]
  rw [if_neg (by decide)]
  exact ⟨_, rfl, rfl⟩

theorem urlsplit_path_clean (w d : List Char) (r : UrlSplit)
    (h : urlsplitChars w d = some r) :
    '#' ∉ r.path ∧ '?' ∉ r.path ∧
      (r.netloc ≠ [] → r.path = [] ∨ r.path.head? = some '/') := by
  simp only [urlsplitChars] at h
  split at h
  · exact absurd h (by simp)
  · rw [Option.some_inj] at h
    subst h
    refine ⟨?_, ?_, ?_⟩
    · intro hc
      have h1 := List.mem_takeWhile_imp (mem_of_mem_takeWhile hc)
      simp at h1
    · intro hc
      have h1 := List.mem_takeWhile_imp hc
      simp at h1
    · intro hnl
      dsimp only at hnl ⊢
      rcases hsn : splitNetlocChars (splitScheme w).2 with ⟨netl, rest⟩
      rw [hsn] at hnl
      dsimp only at hnl ⊢
      rw [splitNetlocChars] at hsn
      split at hsn
      · rw [Prod.mk.injEq] at hsn
        rcases dropWhile_eq_nil_or_head (l := ((splitScheme w).2.drop 2))
            (p := fun c => !netlocStop c) with hdw | ⟨c, t2, hdw, hc⟩
        · rw [← hsn.2, hdw]
          left
          rfl
        · rw [← hsn.2, hdw]
          have hstop : netlocStop c = true := by simpa using hc
          have hcc : (c = '/' ∨ c = '?') ∨ c = '#' := by
            simpa [netlocStop] using hstop
          rcases hcc with (rfl | rfl) | rfl
          · right
            rfl
          · left
            rfl
          · left
            rfl
      · rw [Prod.mk.injEq] at hsn
        exact absurd hsn.1.symm hnl

theorem splitparams_nil : splitparamsPath [] = [] := rfl

theorem urlparse_path_clean (w d : List Char) (p : UrlSplit)
    (h : urlparseChars w d = some p) :
    '#' ∉ p.path ∧ '?' ∉ p.path ∧
      (p.netloc ≠ [] → p.path = [] ∨ p.path.head? = some '/') := by
  rw [urlparseChars] at h
  rcases Option.map_eq_some'.mp h with ⟨r, hr, hfr⟩
  obtain ⟨h1, h2, h3⟩ := urlsplit_path_clean w d r hr
  subst hfr
  refine ⟨fun hc => h1 (splitparams_subset hc), fun hc => h2 (splitparams_subset hc), ?_⟩
  intro hnl
  rcases h3 hnl with h4 | h4
  · left
    show splitparamsPath r.path = []
    rw [h4]
    exact splitparams_nil
  · right
    exact splitparams_head h4

theorem urlsplit_scheme_indep (w d d2 : List Char) (r : UrlSplit)
    (h : urlsplitChars w d = some r) :
    urlsplitChars w d2 = some { r with scheme := (splitScheme w).1.getD d2 } := by
  simp only [urlsplitChars] at h ⊢
  split at h
  · exact absurd h (by simp)
  · rename_i hbad
    rw [if_neg hbad]
    rw [Option.some_inj] at h ⊢
    rw [← h]

theorem urlunsplit_slash_eq (P : List Char) (hP : P ≠ []) :
    urlunsplitChars ⟨bScheme, bNetloc, P, [], []⟩ =
      linkedinBase ++ (if P.headD ' ' = '/' then P else '/' :: P) := by
  simp only [urlunsplitChars]
  rw [if_pos (Or.inl (by decide : (bNetloc : List Char) ≠ []))]
  rw [if_pos (by decide : (bScheme : List Char) ≠ [])]
  rw [if_neg (by simp : ¬([] : List Char) ≠ []), if_neg (by simp : ¬([] : List Char) ≠ [])]
  by_cases hh : P.headD ' ' = '/'
  · rw [if_neg (fun hc => hc.2 hh), if_pos hh]
    rfl
  · rw [if_pos ⟨hP, hh⟩, if_neg hh]
    rfl

theorem slashFix_shape (P : List Char) :
    (if P ≠ [] ∧ P.headD ' ' ≠ '/' then '/' :: P else P) = [] ∨
      ∃ t2, (if P ≠ [] ∧ P.headD ' ' ≠ '/' then '/' :: P else P) = '/' :: t2 := by
  by_cases h : P ≠ [] ∧ P.headD ' ' ≠ '/'
  · rw [if_pos h]
    exact Or.inr ⟨P, rfl⟩
  · rw [if_neg h]
    push_neg at h
    cases P with
    | nil => exact Or.inl rfl
    | cons c t =>
      have hc := h (by simp)
      rw [List.headD_cons] at hc
      exact Or.inr ⟨t, by rw [hc]⟩

theorem urlunsplit_linkedin_shape (P Q F : List Char) :
    ∃ t, urlunsplitChars ⟨bScheme, bNetloc, P, Q, F⟩ = linkedinBase ++ t ∧
      (t = [] ∨ ∃ c t2, t = c :: t2 ∧ netlocStop c = true) := by
  simp only [urlunsplitChars]
  rw [if_pos (Or.inl (by decide : (bNetloc : List Char) ≠ []))]
  rw [if_pos (by decide : (bScheme : List Char) ≠ [])]
  rcases slashFix_shape P with hX | ⟨t2, hX⟩ <;> rw [hX] <;>
    by_cases hQ : Q ≠ [] <;> by_cases hF : F ≠ []
  · rw [if_pos hQ, if_pos hF]
    refine ⟨[] ++ ('?' :: Q ++ '#' :: F), ?_, Or.inr ⟨'?', Q ++ '#' :: F, rfl, rfl⟩⟩
    simp only [List.append_assoc, List.append_nil, List.nil_append]
    rfl
  · rw [if_pos hQ, if_neg hF]
    refine ⟨[] ++ ('?' :: Q), ?_, Or.inr ⟨'?', Q, rfl, rfl⟩⟩
    simp only [List.append_assoc, List.append_nil, List.nil_append]
    rfl
  · rw [if_neg hQ, if_pos hF]
    refine ⟨[] ++ ('#' :: F), ?_, Or.inr ⟨'#', F, rfl, rfl⟩⟩
    simp only [List.append_assoc, List.append_nil, List.nil_append]
    rfl
  · rw [if_neg hQ, if_neg hF]
    refine ⟨[], ?_, Or.inl rfl⟩
    simp only [List.append_assoc, List.append_nil, List.nil_append]
    rfl
  · rw [if_pos hQ, if_pos hF]
    refine ⟨('/' :: t2) ++ ('?' :: Q ++ '#' :: F), ?_,
      Or.inr ⟨'/', t2 ++ ('?' :: Q ++ '#' :: F), rfl, rfl⟩⟩
    simp only [List.append_assoc, List.append_nil, List.nil_append]
    rfl
  · rw [if_pos hQ, if_neg hF]
    refine ⟨('/' :: t2) ++ ('?' :: Q), ?_, Or.inr ⟨'/', t2 ++ ('?' :: Q), rfl, rfl⟩⟩
    simp only [List.append_assoc, List.append_nil, List.nil_append]
    rfl
  · rw [if_neg hQ, if_pos hF]
    refine ⟨('/' :: t2) ++ ('#' :: F), ?_, Or.inr ⟨'/', t2 ++ ('#' :: F), rfl, rfl⟩⟩
    simp only [List.append_assoc, List.append_nil, List.nil_append]
    rfl
  · rw [if_neg hQ, if_neg hF]
    refine ⟨'/' :: t2, ?_, Or.inr ⟨'/', t2, rfl, rfl⟩⟩
    rfl

theorem urljoin_branch_shape (r0 : UrlSplit) (hscheme : r0.scheme = bScheme)
    (N : List Char) :
    ∃ t, urlunsplitChars { r0 with netloc := bNetloc, path := N } = linkedinBase ++ t ∧
      (t = [] ∨ ∃ c t2, t = c :: t2 ∧ netlocStop c = true) := by
  have hrec : ({ r0 with netloc := bNetloc, path := N } : UrlSplit) =
      ⟨bScheme, bNetloc, N, r0.query, r0.fragment⟩ := by
    rw [← hscheme]
  rw [hrec]
  exact urlunsplit_linkedin_shape N r0.query r0.fragment

theorem urljoin_linkedin_shape (u : List Char) (r0 : UrlSplit)
    (hsplit : urlsplitChars u bScheme = some r0) (hnl : r0.netloc = [])
    (v : List Char) (hv : urljoinLinkedin u = some v) :
    v = u ∨ ∃ t, v = linkedinBase ++ t ∧
      (t = [] ∨ ∃ c t2, t = c :: t2 ∧ netlocStop c = true) := by
  simp only [urljoinLinkedin] at hv
  by_cases hu : u = []
  · rw [if_pos hu] at hv
    rw [Option.some_inj] at hv
    subst hv
    exact Or.inr ⟨[], (List.append_nil _).symm, Or.inl rfl⟩
  · rw [if_neg hu, hsplit] at hv
    dsimp only at hv
    by_cases hs : r0.scheme ≠ bScheme
    · rw [if_pos hs] at hv
      rw [Option.some_inj] at hv
      exact Or.inl hv.symm
    · rw [if_neg hs, if_neg (fun hc => hc hnl)] at hv
      have hscheme : r0.scheme = bScheme := not_ne_iff.mp hs
      by_cases hp : r0.path = []
      · rw [if_pos hp] at hv
        rw [Option.some_inj] at hv
        subst hv
        exact Or.inr (urljoin_branch_shape r0 hscheme r0.path)
      · rw [if_neg hp] at hv
        rw [Option.some_inj] at hv
        subst hv
        exact Or.inr (urljoin_branch_shape r0 hscheme _)

theorem clean_of_parse_none {u : List Char} (h : urlparseChars u [] = none) :
    cleanProfileUrlChars u = u := by
  simp only [cleanProfileUrlChars, h, Option.elim]

theorem head?_ne_nil {l : List Char} {c : Char} (h : l.head? = some c) : l ≠ [] := by
  intro hc
  rw [hc] at h
  exact absurd h (by simp)

theorem headD_of_head? {l : List Char} {c : Char} (h : l.head? = some c) :
    l.headD ' ' = c := by
  cases l with
  | nil => exact absurd h (by simp)
  | cons a t =>
    rw [List.head?_cons, Option.some_inj] at h
    rw [List.headD_cons, h]

theorem clean_canonical_fixed (p : List Char)
    (hf : '#' ∉ p) (hq : '?' ∉ p) (hin : containsSeq inMarker p = true) :
    cleanProfileUrlChars
      (urlunsplitChars ⟨bScheme, bNetloc, ensureTrailingSlash p, [], []⟩) =
      urlunsplitChars ⟨bScheme, bNetloc, ensureTrailingSlash p, [], []⟩ := by
  have hPne : ensureTrailingSlash p ≠ [] := ensureTrailingSlash_ne_nil p
  have hPl : (ensureTrailingSlash p).getLast? = some '/' := ensureTrailingSlash_getLast p
  have hPf : '#' ∉ ensureTrailingSlash p := not_mem_ensureTrailingSlash (by decide) hf
  have hPq : '?' ∉ ensureTrailingSlash p := not_mem_ensureTrailingSlash (by decide) hq
  have hPin : containsSeq inMarker (ensureTrailingSlash p) = true :=
    containsSeq_ensureTrailingSlash hin
  rw [urlunsplit_slash_eq (ensureTrailingSlash p) hPne]
  set P := ensureTrailingSlash p with hPdef
  set P2 := if P.headD ' ' = '/' then P else '/' :: P with hP2def
  have hP2head : P2.head? = some '/' := by
    by_cases hh : P.headD ' ' = '/'
    · rw [hP2def, if_pos hh]
      cases hP : P with
      | nil => exact absurd hP hPne
      | cons c t =>
        rw [hP, List.headD_cons] at hh
        rw [List.head?_cons, hh]
    · rw [hP2def, if_neg hh]
      rfl
  have hP2last : P2.getLast? = some '/' := by
    by_cases hh : P.headD ' ' = '/'
    · rw [hP2def, if_pos hh]
      exact hPl
    · rw [hP2def, if_neg hh]
      exact getLast?_cons_of_some hPl
  have hP2f : '#' ∉ P2 := by
    by_cases hh : P.headD ' ' = '/'
    · rw [hP2def, if_pos hh]
      exact hPf
    · rw [hP2def, if_neg hh]
      intro hc
      rcases List.mem_cons.mp hc with h1 | h1
      · exact absurd h1 (by decide)
      · exact hPf h1
  have hP2q : '?' ∉ P2 := by
    by_cases hh : P.headD ' ' = '/'
    · rw [hP2def, if_pos hh]
      exact hPq
    · rw [hP2def, if_neg hh]
      intro hc
      rcases List.mem_cons.mp hc with h1 | h1
      · exact absurd h1 (by decide)
      · exact hPq h1
  have hP2in : containsSeq inMarker P2 = true := by
    by_cases hh : P.headD ' ' = '/'
    · rw [hP2def, if_pos hh]
      exact hPin
    · rw [hP2def, if_neg hh]
      exact containsSeq_cons_of '/' hPin
  have hparse := urlparse_canonical P2 [] hP2head hP2q hP2f
  rw [splitparams_of_trailing hP2last] at hparse
  simp only [cleanProfileUrlChars, hparse, Option.elim]
  rw [if_neg (by decide : ¬(bNetloc : List Char) = [])]
  simp only [cleanStep, Option.elim]
  rw [if_pos hP2in]
  have hens : ensureTrailingSlash P2 = P2 := by
    rw [ensureTrailingSlash, if_pos hP2last]
  rw [hens, urlunsplit_slash_eq P2 (head?_ne_nil hP2head), if_pos (headD_of_head? hP2head)]

theorem cleanChars_idempotent (u : List Char) :
    cleanProfileUrlChars (cleanProfileUrlChars u) = cleanProfileUrlChars u := by
  cases h1 : urlparseChars u [] with
  | none =>
    have he := clean_of_parse_none h1
    rw [he]
    exact he
  | some p1 =>
    have hcu : cleanProfileUrlChars u =
        (if p1.netloc = [] then
          (urljoinLinkedin u).elim u (fun v => cleanStep v (urlparseChars v []))
        else cleanStep u (some p1)) := by
      simp only [cleanProfileUrlChars, h1, Option.elim_some]
    by_cases hnl : p1.netloc = []
    · rw [if_pos hnl] at hcu
      cases hj : urljoinLinkedin u with
      | none =>
        rw [hj, Option.elim_none] at hcu
        rw [hcu]
        exact hcu
      | some v =>
        rw [hj, Option.elim_some] at hcu
        cases hp : urlparseChars v [] with
        | none =>
          rw [hp] at hcu
          simp only [cleanStep, Option.elim_none] at hcu
          rw [hcu]
          exact clean_of_parse_none hp
        | some p =>
          rw [hp] at hcu
          simp only [cleanStep, Option.elim_some] at hcu
          by_cases hin : containsSeq inMarker p.path = true
          · rw [if_pos hin] at hcu
            rw [hcu]
            obtain ⟨hpf, hpq, _⟩ := urlparse_path_clean v [] p hp
            exact clean_canonical_fixed p.path hpf hpq hin
          · rw [if_neg hin] at hcu
            rw [hcu]
            rw [urlparseChars] at h1
            rcases Option.map_eq_some'.mp h1 with ⟨r1, hr1, hfr1⟩
            subst hfr1
            dsimp only at hnl
            have hr0 := urlsplit_scheme_indep u [] bScheme r1 hr1
            rcases urljoin_linkedin_shape u _ hr0 hnl v hj with hvu | ⟨t, rfl, ht⟩
            · rw [hvu] at hcu ⊢
              exact hcu
            · obtain ⟨r2, hr2, hr2nl⟩ := urlparse_linkedin_netloc t [] ht
              rw [hp, Option.some_inj] at hr2
              have hpnl : p.netloc ≠ [] := by
                rw [← hr2] at hr2nl
                rw [hr2nl]
                decide
              simp only [cleanProfileUrlChars, hp, Option.elim_some]
              rw [if_neg hpnl]
              simp only [cleanStep, Option.elim_some]
              rw [if_neg hin]
    · rw [if_neg hnl] at hcu
      simp only [cleanStep, Option.elim_some] at hcu
      by_cases hin : containsSeq inMarker p1.path = true
      · rw [if_pos hin] at hcu
        rw [hcu]
        obtain ⟨hpf, hpq, _⟩ := urlparse_path_clean u [] p1 h1
        exact clean_canonical_fixed p1.path hpf hpq hin
      · rw [if_neg hin] at hcu
        rw [hcu]
        exact hcu

/-- C5: URL canonicalization is idempotent — for every input string `u`,
`clean_profile_url (clean_profile_url u) = clean_profile_url u`. -/
theorem C5_canonicalization_idempotent (u : String) :
    clean_profile_url (clean_profile_url u) = clean_profile_url u :=
  congrArg String.mk (cleanChars_idempotent u.data)
